import Mathlib

/-!
Verification of the speakr voice-dictation utility.

This file gives a shallow embedding of the core control logic of the
repository (src/tts.py, src/hotkeys.py, src/recorder.py, src/config.py)
and proves the frozen specification claims about it.

Strings are modelled as `List Char`.  Python handlers are modelled as pure
step functions on explicit state records; each keyboard-event handler is
treated as one atomic step (the source serializes handler bodies under
`state_lock` for all chord state).  Wall-clock times are rationals.
-/

/-- ASCII whitespace, matching Python's `str.strip()` / regex `\s` on the
ASCII range (Unicode-only whitespace is not modelled). -/
def isWsp (c : Char) : Bool :=
  c = ' ' || c = '\t' || c = '\n' || c = '\r' || c = '\x0b' || c = '\x0c'

/-- The non-whitespace characters of a string, in order.  Two strings that
agree on `tight` are equal "modulo whitespace collapsing". -/
def tight (l : List Char) : List Char :=
  l.filter (fun c => !(isWsp c))

/-- Python `str.lstrip()`: drop leading whitespace. -/
def lstrip (l : List Char) : List Char :=
  l.dropWhile isWsp

/-- Python `str.rstrip()`: drop trailing whitespace. -/
def rstrip (l : List Char) : List Char :=
  (l.reverse.dropWhile isWsp).reverse

/-- Python `str.strip()`: drop leading and trailing whitespace. -/
def strip (l : List Char) : List Char :=
  rstrip (lstrip l)

/-- `text.replace("\r\n", "\n")` from `chunk_text` (src/tts.py line 110):
left-to-right non-overlapping replacement of CRLF pairs. -/
def normCRLF : List Char → List Char
  | [] => []
  | [c] => [c]
  | c :: d :: rest =>
    if c = '\r' && d = '\n' then '\n' :: normCRLF rest
    else c :: normCRLF (d :: rest)

/-- Python `str.split("\n")` (src/tts.py line 111): split on every newline,
keeping empty pieces. -/
def splitNl : List Char → List (List Char)
  | [] => [[]]
  | c :: rest =>
    if c = '\n' then [] :: splitNl rest
    else
      match splitNl rest with
      | [] => [[c]]
      | h :: t => (c :: h) :: t

/-- End-of-sentence punctuation of the regex `(?<=[.!?])\s+`. -/
def isPunct (c : Char) : Bool :=
  c = '.' || c = '!' || c = '?'

/-- Whether a string starts with a whitespace character. -/
def headWsp : List Char → Bool
  | [] => false
  | c :: _ => isWsp c

/-- `re.split(r"(?<=[.!?])\s+", paragraph)` (src/tts.py line 115), fuelled:
scan left to right; at each position where the previous character is
end-of-sentence punctuation and the current character is whitespace the
regex matches the maximal whitespace run, cutting the string there.  The
fuel is an upper bound on the scanned length; `sentSplit` supplies it. -/
def sentSplitF : Nat → List Char → List Char → List (List Char)
  | 0, acc, _ => [acc.reverse]
  | _ + 1, acc, [] => [acc.reverse]
  | f + 1, acc, c :: rest =>
    if isPunct c && headWsp rest then
      (c :: acc).reverse :: sentSplitF f [] (rest.dropWhile isWsp)
    else
      sentSplitF f (c :: acc) rest

/-- Sentence split of one paragraph per the source regex. -/
def sentSplit (p : List Char) : List (List Char) :=
  sentSplitF p.length [] p

/-- The hard-split loop `for i in range(0, len(sentence), max_len)` of
`chunk_text` (src/tts.py lines 132-135), fuelled: slice `m` characters at a
time, strip each slice, keep the non-empty ones.  For `m = 0` the Python
`range` raises `ValueError`; that case is never reached (all call sites use
a positive `max_len`) and the fuel then simply runs out. -/
def hardSplitF (m : Nat) : Nat → List Char → List (List Char)
  | 0, _ => []
  | f + 1, s =>
    if s.isEmpty then []
    else
      (let sliced := strip (s.take m)
       if sliced.isEmpty then [] else [sliced]) ++ hardSplitF m f (s.drop m)

/-- Hard split of an over-long sentence into slices of at most `m`. -/
def hardSplit (m : Nat) (s : List Char) : List (List Char) :=
  hardSplitF m s.length s

/-- The greedy packing loop of `chunk_text` (src/tts.py lines 124-146):
`current` is the chunk being built; a sentence longer than `m` flushes
`current` and is hard-split; otherwise it is merged into `current` when it
fits (with one joining space) and starts a new chunk when it does not. -/
def packLoop (m : Nat) : List (List Char) → List Char → List (List Char)
  | [], current => if current.isEmpty then [] else [strip current]
  | s :: rest, current =>
    if m < s.length then
      (if current.isEmpty then [] else [strip current]) ++ hardSplit m s ++ packLoop m rest []
    else if current.length + s.length + (if current.isEmpty then 0 else 1) ≤ m then
      packLoop m rest (strip (current ++ ' ' :: s))
    else
      (if current.isEmpty then [] else [strip current]) ++ packLoop m rest s

/-- `TextToSpeechService.chunk_text(text, max_len)` (src/tts.py lines
105-148): normalize CRLF, split into stripped non-empty paragraphs, split
each paragraph into stripped non-empty sentence fragments, then greedily
pack the fragments into chunks of at most `maxLen` characters. -/
def chunk_text (text : List Char) (maxLen : Nat) : List (List Char) :=
  if text.isEmpty then []
  else
    let normalized := normCRLF text
    let paragraphs := ((splitNl normalized).map strip).filter (fun p => !p.isEmpty)
    let sentences :=
      (paragraphs.map (fun p => ((sentSplit p).map strip).filter (fun s => !s.isEmpty))).flatten
    let sentences' := if sentences.isEmpty then paragraphs else sentences
    packLoop maxLen sentences' []

/-! ### Whitespace and strip lemmas -/

theorem tight_append (l₁ l₂ : List Char) : tight (l₁ ++ l₂) = tight l₁ ++ tight l₂ :=
  List.filter_append l₁ l₂

theorem tight_dropWhile (l : List Char) : tight (l.dropWhile isWsp) = tight l := by
  induction l with
  | nil => rfl
  | cons a t ih =>
    by_cases h : isWsp a
    · simpa [List.dropWhile_cons, h, tight] using ih
    · simp [List.dropWhile_cons, h]

theorem tight_reverse (l : List Char) : tight l.reverse = (tight l).reverse :=
  List.filter_reverse _ l

theorem tight_lstrip (l : List Char) : tight (lstrip l) = tight l :=
  tight_dropWhile l

theorem tight_rstrip (l : List Char) : tight (rstrip l) = tight l := by
  have h := tight_dropWhile l.reverse
  have : tight (rstrip l) = (tight (l.reverse.dropWhile isWsp)).reverse := tight_reverse _
  rw [this, h, tight_reverse, List.reverse_reverse]

theorem tight_strip (l : List Char) : tight (strip l) = tight l := by
  rw [strip, tight_rstrip, tight_lstrip]

theorem length_dropWhile_le (p : Char → Bool) (l : List Char) :
    (l.dropWhile p).length ≤ l.length := by
  induction l with
  | nil => simp [List.dropWhile]
  | cons a t ih =>
    by_cases h : p a
    · simp [List.dropWhile_cons, h]; omega
    · simp [List.dropWhile_cons, h]

theorem length_strip_le (l : List Char) : (strip l).length ≤ l.length := by
  have h1 : (lstrip l).length ≤ l.length := length_dropWhile_le _ l
  have h2 : (rstrip (lstrip l)).length ≤ (lstrip l).length := by
    rw [rstrip, List.length_reverse]
    calc ((lstrip l).reverse.dropWhile isWsp).length ≤ (lstrip l).reverse.length :=
          length_dropWhile_le _ _
      _ = (lstrip l).length := List.length_reverse _
  exact le_trans h2 h1

theorem head?_dropWhile_not (p : Char → Bool) (l : List Char) :
    ∀ a, (l.dropWhile p).head? = some a → p a = false := by
  induction l with
  | nil => intro a h; simp [List.dropWhile] at h
  | cons b t ih =>
    intro a h
    by_cases hb : p b
    · rw [List.dropWhile_cons, if_pos hb] at h; exact ih a h
    · rw [List.dropWhile_cons, if_neg hb] at h
      simp at h
      subst h
      simpa using hb

theorem dropWhile_eq_self_of_head (p : Char → Bool) (l : List Char)
    (h : ∀ a, l.head? = some a → p a = false) : l.dropWhile p = l := by
  cases l with
  | nil => rfl
  | cons a t =>
    have := h a rfl
    rw [List.dropWhile_cons, if_neg (by simp [this])]

theorem getLast?_dropWhile (p : Char → Bool) (l : List Char)
    (h : l.dropWhile p ≠ []) : (l.dropWhile p).getLast? = l.getLast? := by
  induction l with
  | nil => simp [List.dropWhile] at h
  | cons a t ih =>
    by_cases ha : p a
    · rw [List.dropWhile_cons, if_pos ha] at h ⊢
      rw [ih h]
      have ht : t ≠ [] := by
        intro he; rw [he] at h; simp [List.dropWhile] at h
      cases t with
      | nil => exact absurd rfl ht
      | cons b u => simp [List.getLast?_cons_cons]
    · rw [List.dropWhile_cons, if_neg ha]

theorem rstrip_getLast (l : List Char) :
    ∀ a, (rstrip l).getLast? = some a → isWsp a = false := by
  intro a h
  rw [rstrip, List.getLast?_reverse] at h
  exact head?_dropWhile_not isWsp l.reverse a h

theorem lstrip_head (l : List Char) :
    ∀ a, (lstrip l).head? = some a → isWsp a = false :=
  head?_dropWhile_not isWsp l

theorem lstrip_eq_self (l : List Char)
    (h : ∀ a, l.head? = some a → isWsp a = false) : lstrip l = l :=
  dropWhile_eq_self_of_head isWsp l h

theorem rstrip_eq_self (l : List Char)
    (h : ∀ a, l.getLast? = some a → isWsp a = false) : rstrip l = l := by
  rw [rstrip, dropWhile_eq_self_of_head isWsp l.reverse
    (by intro a ha; rw [List.head?_reverse] at ha; exact h a ha), List.reverse_reverse]

theorem head?_rstrip (l : List Char) (h : rstrip l ≠ []) :
    (rstrip l).head? = l.head? := by
  rw [rstrip, List.head?_reverse]
  rw [getLast?_dropWhile isWsp l.reverse (by
    intro he; rw [rstrip, he] at h; simp at h)]
  exact List.getLast?_reverse l

theorem strip_strip (l : List Char) : strip (strip l) = strip l := by
  have h1 : lstrip (strip l) = strip l := by
    apply lstrip_eq_self
    intro a ha
    by_cases hs : strip l = []
    · rw [hs] at ha; simp at ha
    · rw [strip, head?_rstrip (lstrip l) hs] at ha
      exact lstrip_head l a ha
  rw [strip, h1]
  apply rstrip_eq_self
  intro a ha
  exact rstrip_getLast (lstrip l) a ha

theorem tight_eq_nil_iff (l : List Char) : tight l = [] ↔ ∀ c ∈ l, isWsp c = true := by
  constructor
  · intro h c hc
    by_contra hw
    have : c ∈ tight l := by
      rw [tight, List.mem_filter]
      exact ⟨hc, by simp [hw]⟩
    rw [h] at this
    simp at this
  · intro h
    rw [tight, List.filter_eq_nil_iff]
    intro c hc
    simp [h c hc]

theorem dropWhile_eq_nil_of_all (p : Char → Bool) (l : List Char)
    (h : ∀ c ∈ l, p c = true) : l.dropWhile p = [] := by
  induction l with
  | nil => rfl
  | cons a t ih =>
    rw [List.dropWhile_cons, if_pos (h a (by simp))]
    exact ih (fun c hc => h c (by simp [hc]))

theorem strip_eq_nil_iff (l : List Char) : strip l = [] ↔ tight l = [] := by
  constructor
  · intro h
    have := tight_strip l
    rw [h] at this
    exact this.symm
  · intro h
    have hall : ∀ c ∈ l, isWsp c = true := (tight_eq_nil_iff l).1 h
    rw [strip, lstrip, dropWhile_eq_nil_of_all isWsp l hall]
    rfl

theorem strip_cons_wsp (c : Char) (s : List Char) (h : isWsp c = true) :
    strip (c :: s) = strip s := by
  rw [strip, strip, lstrip, lstrip, List.dropWhile_cons, if_pos h]

theorem tight_ne_nil_of_clean (c : List Char) (hne : c ≠ []) (hs : strip c = c) :
    tight c ≠ [] := by
  intro ht
  exact hne (hs ▸ (strip_eq_nil_iff c).2 ht)

/-! ### Content preservation through the chunking pipeline -/

theorem tight_cons (c : Char) (l : List Char) :
    tight (c :: l) = (if isWsp c then [] else [c]) ++ tight l := by
  by_cases h : isWsp c <;> simp [tight, List.filter_cons, h]

theorem tight_normCRLF (l : List Char) : tight (normCRLF l) = tight l := by
  induction l using normCRLF.induct with
  | case1 => rfl
  | case2 c => rfl
  | case3 c d rest hcd ih =>
    rw [normCRLF, if_pos hcd]
    simp only [Bool.and_eq_true, decide_eq_true_eq] at hcd
    rw [tight_cons, tight_cons, hcd.1, tight_cons, hcd.2, ih]
    simp [isWsp]
  | case4 c d rest hcd ih =>
    rw [normCRLF, if_neg hcd]
    rw [tight_cons, tight_cons, ih]

theorem splitNl_ne_nil (l : List Char) : splitNl l ≠ [] := by
  cases l with
  | nil => simp [splitNl]
  | cons c rest =>
    by_cases h : c = '\n'
    · simp [splitNl, h]
    · simp only [splitNl, if_neg h]
      cases splitNl rest <;> simp

theorem tight_flatten_splitNl (l : List Char) : tight (splitNl l).flatten = tight l := by
  induction l with
  | nil => rfl
  | cons c rest ih =>
    by_cases h : c = '\n'
    · rw [show splitNl (c :: rest) = [] :: splitNl rest by simp [splitNl, h]]
      rw [List.flatten_cons, List.nil_append, ih, tight_cons]
      simp [h, isWsp]
    · rcases he : splitNl rest with _ | ⟨hd, tl⟩
      · exact absurd he (splitNl_ne_nil rest)
      · rw [show splitNl (c :: rest) = (c :: hd) :: tl by
          simp only [splitNl, if_neg h, he]]
        rw [he, List.flatten_cons] at ih
        rw [List.flatten_cons, List.cons_append, tight_cons, ih, tight_cons]

theorem tight_flatten_mapStripFilter (ps : List (List Char)) :
    tight ((ps.map strip).filter (fun x => !x.isEmpty)).flatten = tight ps.flatten := by
  induction ps with
  | nil => rfl
  | cons p rest ih =>
    simp only [List.map_cons, List.filter_cons, List.flatten_cons, tight_append]
    by_cases h : (strip p).isEmpty
    · have hp : tight p = [] := by
        rw [← tight_strip p]
        rw [List.isEmpty_iff] at h
        rw [h]; rfl
      rw [hp]
      simp only [h, Bool.not_true]
      simpa using ih
    · simp only [h, Bool.not_false]
      simpa [tight_append, tight_strip] using ih

theorem tight_nil : tight [] = [] := rfl

theorem tight_flatten_sentSplitF (f : Nat) (acc l : List Char) (h : l.length ≤ f) :
    tight (sentSplitF f acc l).flatten = tight acc.reverse ++ tight l := by
  induction f generalizing acc l with
  | zero =>
    have : l = [] := List.length_eq_zero.mp (Nat.le_zero.mp h)
    subst this
    simp [sentSplitF, tight_nil]
  | succ f ih =>
    cases l with
    | nil => simp [sentSplitF, tight_nil]
    | cons c rest =>
      by_cases hc : (isPunct c && headWsp rest) = true
      · rw [show sentSplitF (f+1) acc (c :: rest) =
            (c :: acc).reverse :: sentSplitF f [] (rest.dropWhile isWsp) by
          simp [sentSplitF, hc]]
        rw [List.flatten_cons, tight_append,
          ih [] (rest.dropWhile isWsp) (le_trans (length_dropWhile_le _ _)
            (Nat.le_of_succ_le_succ h)),
          tight_dropWhile]
        rw [List.reverse_cons, tight_append, tight_cons, tight_cons, tight_nil]
        simp [List.append_assoc, tight_nil]
      · rw [show sentSplitF (f+1) acc (c :: rest) = sentSplitF f (c :: acc) rest by
          simp [sentSplitF, hc]]
        rw [ih (c :: acc) rest (Nat.le_of_succ_le_succ h)]
        rw [List.reverse_cons, tight_append, tight_cons, tight_cons, tight_nil]
        simp [List.append_assoc, tight_nil]

theorem tight_flatten_sentSplit (p : List Char) :
    tight (sentSplit p).flatten = tight p := by
  rw [sentSplit, tight_flatten_sentSplitF p.length [] p le_rfl]
  rfl

theorem hardSplitF_cons_eq (m f : Nat) (a : Char) (t : List Char) :
    hardSplitF m (f+1) (a :: t) =
      (if (strip ((a :: t).take m)).isEmpty then []
       else [strip ((a :: t).take m)]) ++ hardSplitF m f ((a :: t).drop m) := by
  simp [hardSplitF]

theorem tight_flatten_hardSplitF (m f : Nat) (s : List Char)
    (hm : 1 ≤ m) (h : s.length ≤ f) :
    tight (hardSplitF m f s).flatten = tight s := by
  induction f generalizing s with
  | zero =>
    have : s = [] := List.length_eq_zero.mp (Nat.le_zero.mp h)
    subst this
    rfl
  | succ f ih =>
    cases s with
    | nil => rfl
    | cons a t =>
      rw [hardSplitF_cons_eq]
      have hdrop : ((a :: t).drop m).length ≤ f := by
        rw [List.length_drop]
        simp only [List.length_cons] at h ⊢
        omega
      rw [List.flatten_append, tight_append, ih _ hdrop]
      by_cases he : (strip ((a :: t).take m)).isEmpty
      · have hzero : tight ((a :: t).take m) = [] := by
          rw [← tight_strip, List.isEmpty_iff.mp he]; rfl
        rw [if_pos he]
        conv_rhs => rw [← List.take_append_drop m (a :: t)]
        rw [tight_append, hzero]
        rfl
      · rw [if_neg he]
        rw [show ([strip ((a :: t).take m)] : List (List Char)).flatten =
            strip ((a :: t).take m) by simp]
        rw [tight_strip]
        conv_rhs => rw [← List.take_append_drop m (a :: t)]
        rw [tight_append]

theorem tight_flatten_hardSplit (m : Nat) (s : List Char) (hm : 1 ≤ m) :
    tight (hardSplit m s).flatten = tight s :=
  tight_flatten_hardSplitF m s.length s hm le_rfl

theorem tight_flatten_packLoop (m : Nat) (hm : 1 ≤ m) (ss : List (List Char))
    (current : List Char) :
    tight (packLoop m ss current).flatten = tight current ++ tight ss.flatten := by
  induction ss generalizing current with
  | nil =>
    by_cases h : current.isEmpty
    · rw [packLoop, if_pos h, List.isEmpty_iff.mp h]
      rfl
    · rw [packLoop, if_neg h]
      simp [tight_strip, tight_nil]
  | cons s rest ih =>
    rw [packLoop]
    by_cases h1 : m < s.length
    · rw [if_pos h1, List.flatten_append, List.flatten_append, tight_append, tight_append,
        tight_flatten_hardSplit m s hm, ih []]
      by_cases h : current.isEmpty
      · rw [if_pos h, List.isEmpty_iff.mp h]
        simp [tight_nil, tight_append]
      · rw [if_neg h]
        simp [tight_strip, tight_nil, tight_append, List.append_assoc]
    · rw [if_neg h1]
      by_cases h2 : current.length + s.length + (if current.isEmpty then 0 else 1) ≤ m
      · rw [if_pos h2, ih _]
        rw [tight_strip, tight_append, tight_cons]
        simp [isWsp, List.append_assoc, tight_append]
      · rw [if_neg h2]
        by_cases h : current.isEmpty
        · rw [if_pos h, List.isEmpty_iff.mp h]
          rw [List.nil_append, ih s]
          simp [tight_nil, tight_append]
        · rw [if_neg h]
          rw [List.flatten_append, tight_append, ih s]
          simp [tight_strip, List.append_assoc, tight_append]

/-! ### Chunk length bound and chunk cleanliness -/

theorem hardSplitF_sound (m f : Nat) (s : List Char) :
    ∀ c ∈ hardSplitF m f s, c.length ≤ m ∧ strip c = c ∧ c ≠ [] := by
  induction f generalizing s with
  | zero => intro c hc; simp [hardSplitF] at hc
  | succ f ih =>
    intro c hc
    cases s with
    | nil => simp [hardSplitF] at hc
    | cons a t =>
      rw [hardSplitF_cons_eq] at hc
      rcases List.mem_append.mp hc with h | h
      · by_cases he : (strip ((a :: t).take m)).isEmpty
        · rw [if_pos he] at h; simp at h
        · rw [if_neg he] at h
          simp only [List.mem_singleton] at h
          subst h
          refine ⟨?_, strip_strip _, by simpa using he⟩
          calc (strip ((a :: t).take m)).length ≤ ((a :: t).take m).length :=
                length_strip_le _
            _ ≤ m := by simp [List.length_take]
      · exact ih _ c h

theorem flushChunk_sound (m : Nat) (current : List Char)
    (hlen : current.length ≤ m)
    (hinv : current = [] ∨ (strip current = current ∧ current ≠ []))
    (hne : ¬current.isEmpty = true) :
    (strip current).length ≤ m ∧ strip (strip current) = strip current ∧ strip current ≠ [] := by
  rcases hinv with h0 | ⟨hst, hcne⟩
  · subst h0; simp at hne
  · rw [hst]; exact ⟨hlen, hst, hcne⟩

theorem packLoop_sound (m : Nat) (ss : List (List Char)) (current : List Char)
    (hss : ∀ s ∈ ss, strip s = s ∧ s ≠ [])
    (hlen : current.length ≤ m)
    (hinv : current = [] ∨ (strip current = current ∧ current ≠ [])) :
    ∀ c ∈ packLoop m ss current, c.length ≤ m ∧ strip c = c ∧ c ≠ [] := by
  induction ss generalizing current with
  | nil =>
    intro c hc
    rw [packLoop] at hc
    by_cases hemp : current.isEmpty
    · rw [if_pos hemp] at hc; simp at hc
    · rw [if_neg hemp] at hc
      simp only [List.mem_singleton] at hc
      subst hc
      exact flushChunk_sound m current hlen hinv hemp
  | cons s rest ih =>
    intro c hc
    have hsProp := hss s (by simp)
    have hrest : ∀ x ∈ rest, strip x = x ∧ x ≠ [] := fun x hx => hss x (by simp [hx])
    rw [packLoop] at hc
    by_cases h1 : m < s.length
    · rw [if_pos h1] at hc
      rcases List.mem_append.mp hc with hmem | hmem
      · rcases List.mem_append.mp hmem with hmem2 | hmem2
        · by_cases hemp : current.isEmpty
          · rw [if_pos hemp] at hmem2; simp at hmem2
          · rw [if_neg hemp] at hmem2
            simp only [List.mem_singleton] at hmem2
            subst hmem2
            exact flushChunk_sound m current hlen hinv hemp
        · exact hardSplitF_sound m s.length s c hmem2
      · exact ih [] hrest (by simp) (Or.inl rfl) c hmem
    · rw [if_neg h1] at hc
      by_cases h2 : current.length + s.length + (if current.isEmpty then 0 else 1) ≤ m
      · rw [if_pos h2] at hc
        refine ih _ hrest ?_ ?_ c hc
        · by_cases hz : current = []
          · subst hz
            rw [List.nil_append, strip_cons_wsp ' ' s (by simp [isWsp])]
            simp only [List.isEmpty_nil, if_pos rfl] at h2
            calc (strip s).length ≤ s.length := length_strip_le s
              _ ≤ m := by omega
          · have hne' : ¬current.isEmpty = true := by simpa [List.isEmpty_iff] using hz
            rw [if_neg hne'] at h2
            calc (strip (current ++ ' ' :: s)).length ≤ (current ++ ' ' :: s).length :=
                  length_strip_le _
              _ = current.length + s.length + 1 := by simp [List.length_append]; omega
              _ ≤ m := h2
        · by_cases hz : strip (current ++ ' ' :: s) = []
          · exact Or.inl hz
          · exact Or.inr ⟨strip_strip _, hz⟩
      · rw [if_neg h2] at hc
        rcases List.mem_append.mp hc with hmem | hmem
        · by_cases hemp : current.isEmpty
          · rw [if_pos hemp] at hmem; simp at hmem
          · rw [if_neg hemp] at hmem
            simp only [List.mem_singleton] at hmem
            subst hmem
            exact flushChunk_sound m current hlen hinv hemp
        · exact ih s hrest (by omega) (Or.inr hsProp) c hmem

theorem mem_mapStripFilter (ps : List (List Char)) (c : List Char)
    (h : c ∈ (ps.map strip).filter (fun x => !x.isEmpty)) : strip c = c ∧ c ≠ [] := by
  rw [List.mem_filter] at h
  obtain ⟨hmem, hne⟩ := h
  rw [List.mem_map] at hmem
  obtain ⟨p, _, rfl⟩ := hmem
  exact ⟨strip_strip p, by simpa using hne⟩

theorem chunk_text_sentences_clean (text : List Char) (maxLen : Nat) :
    ∀ c ∈ chunk_text text maxLen, c.length ≤ maxLen ∧ strip c = c ∧ c ≠ [] := by
  intro c hc
  rw [chunk_text] at hc
  by_cases ht : text.isEmpty
  · rw [if_pos ht] at hc; simp at hc
  · rw [if_neg ht] at hc
    refine packLoop_sound maxLen _ [] ?_ (by simp) (Or.inl rfl) c hc
    intro s hs
    by_cases hb :
        ((((splitNl (normCRLF text)).map strip).filter (fun p => !p.isEmpty)).map
          (fun p => ((sentSplit p).map strip).filter (fun s => !s.isEmpty))).flatten.isEmpty
    · rw [if_pos hb] at hs
      exact mem_mapStripFilter _ s hs
    · rw [if_neg hb] at hs
      rw [List.mem_flatten] at hs
      obtain ⟨l, hl, hsl⟩ := hs
      rw [List.mem_map] at hl
      obtain ⟨p, _, rfl⟩ := hl
      exact mem_mapStripFilter _ s hsl

theorem tight_flatten_paragraphSentences (ps : List (List Char)) :
    tight ((ps.map (fun p => ((sentSplit p).map strip).filter (fun s => !s.isEmpty))).flatten).flatten
      = tight ps.flatten := by
  induction ps with
  | nil => rfl
  | cons p rest ih =>
    rw [List.map_cons, List.flatten_cons, List.flatten_append, tight_append, ih,
      List.flatten_cons, tight_append, tight_flatten_mapStripFilter, tight_flatten_sentSplit]

theorem chunk_text_tight (text : List Char) (maxLen : Nat) (hm : 1 ≤ maxLen) :
    tight (chunk_text text maxLen).flatten = tight (normCRLF text) := by
  rw [chunk_text]
  by_cases ht : text.isEmpty
  · rw [if_pos ht, List.isEmpty_iff.mp ht]
    rfl
  · rw [if_neg ht]
    dsimp only
    have hpar :
        tight (((splitNl (normCRLF text)).map strip).filter (fun p => !p.isEmpty)).flatten
          = tight (normCRLF text) := by
      rw [tight_flatten_mapStripFilter, tight_flatten_splitNl]
    by_cases hb :
        ((((splitNl (normCRLF text)).map strip).filter (fun p => !p.isEmpty)).map
          (fun p => ((sentSplit p).map strip).filter (fun s => !s.isEmpty))).flatten.isEmpty
    · rw [if_pos hb]
      rw [tight_flatten_packLoop maxLen hm _ [], tight_nil, List.nil_append, hpar]
    · rw [if_neg hb]
      rw [tight_flatten_packLoop maxLen hm _ [], tight_nil, List.nil_append,
        tight_flatten_paragraphSentences, hpar]

theorem chunk_text_eq_nil_iff (text : List Char) (maxLen : Nat) (hm : 1 ≤ maxLen) :
    chunk_text text maxLen = [] ↔ tight text = [] := by
  constructor
  · intro h
    have := chunk_text_tight text maxLen hm
    rw [h, tight_normCRLF] at this
    exact this.symm
  · intro h
    rcases he : chunk_text text maxLen with _ | ⟨c, rest⟩
    · rfl
    · exfalso
      have hclean := chunk_text_sentences_clean text maxLen c (by rw [he]; simp)
      have hflat : tight (chunk_text text maxLen).flatten = [] := by
        rw [chunk_text_tight text maxLen hm, tight_normCRLF, h]
      rw [tight, List.filter_flatten] at hflat
      rw [List.flatten_eq_nil_iff] at hflat
      have : tight c = [] := hflat (tight c) (by
        rw [List.mem_map]
        exact ⟨c, by rw [he]; simp, rfl⟩)
      exact tight_ne_nil_of_clean c hclean.2.2 hclean.2.1 this

/-- C3: for every text and every maxLen > 0, every chunk returned by
`chunk_text` has length at most maxLen (hard-split pieces of over-long
atomic fragments included, with no truncation of characters), and the
concatenation of the returned chunks reproduces the CRLF-normalized input
modulo whitespace collapsing: the non-whitespace characters agree exactly
and in order. -/
theorem chunk_text_reconstruction_and_bound (text : List Char) (maxLen : Nat)
    (hm : 1 ≤ maxLen) :
    (∀ c ∈ chunk_text text maxLen, c.length ≤ maxLen) ∧
    tight (chunk_text text maxLen).flatten = tight (normCRLF text) :=
  ⟨fun c hc => (chunk_text_sentences_clean text maxLen c hc).1,
   chunk_text_tight text maxLen hm⟩

/-- Witness for C3 at the concrete text "Hi. Yo" with maxLen 5. -/
theorem chunk_text_reconstruction_and_bound_witness :
    1 ≤ 5 ∧
    ((∀ c ∈ chunk_text "Hi. Yo".data 5, c.length ≤ 5) ∧
     tight (chunk_text "Hi. Yo".data 5).flatten = tight (normCRLF "Hi. Yo".data)) :=
  ⟨by decide, chunk_text_reconstruction_and_bound "Hi. Yo".data 5 (by decide)⟩

/-- C9: for every text and maxLen > 0, every chunk returned by `chunk_text`
is non-empty and free of leading and trailing whitespace, and the result is
the empty list exactly when the input has no non-whitespace character. -/
theorem chunk_text_chunks_clean (text : List Char) (maxLen : Nat) (hm : 1 ≤ maxLen) :
    (∀ c ∈ chunk_text text maxLen, c ≠ [] ∧ strip c = c) ∧
    (chunk_text text maxLen = [] ↔ tight text = []) :=
  ⟨fun c hc => ⟨(chunk_text_sentences_clean text maxLen c hc).2.2,
    (chunk_text_sentences_clean text maxLen c hc).2.1⟩,
   chunk_text_eq_nil_iff text maxLen hm⟩

/-- Witness for C9 at the concrete text " a.  " with maxLen 3. -/
theorem chunk_text_chunks_clean_witness :
    1 ≤ 3 ∧
    ((∀ c ∈ chunk_text " a.  ".data 3, c ≠ [] ∧ strip c = c) ∧
     (chunk_text " a.  ".data 3 = [] ↔ tight " a.  ".data = [])) :=
  ⟨by decide, chunk_text_chunks_clean " a.  ".data 3 (by decide)⟩

/-- C8 counterexample: with maxLen 10 the claimed chunk list
["Hello", "world.", "This is a", "test."] is not what `chunk_text`
returns; the sentence fragment "Hello world." (12 characters) is an atomic
fragment longer than 10, so it is hard-split at the 10-character boundary
into "Hello worl" and "d.", not at the word boundary. -/
theorem chunk_text_scenario_maxlen10_ne_claimed :
    chunk_text "Hello world. This is a test.".data 10 ≠
      ["Hello".data, "world.".data, "This is a".data, "test.".data] := by
  decide

/-- C8 amended: chunk_text("Hello world. This is a test.", 400) is the
single chunk "Hello world. This is a test.", and with maxLen 10 the chunks
are ["Hello worl", "d.", "This is a", "test."], each of length at most
10. -/
theorem chunk_text_scenario_values :
    chunk_text "Hello world. This is a test.".data 400 =
      ["Hello world. This is a test.".data] ∧
    chunk_text "Hello world. This is a test.".data 10 =
      ["Hello worl".data, "d.".data, "This is a".data, "test.".data] := by
  exact ⟨rfl, rfl⟩

/-! ### Recorder: sample-rate negotiation (src/recorder.py lines 101-125) -/

/-- `SAMPLE_RATE` (src/recorder.py line 13): the hardcoded safe default. -/
def SAMPLE_RATE : Nat := 16000

/-- The fixed priority list `common_rates` (src/recorder.py line 108). -/
def commonRates : List Nat := [44100, 48000, 16000, 8000]

/-- The `for rate in common_rates` loop (src/recorder.py lines 109-116):
return the first rate accepted by `sd.check_input_settings`, modelled by
the capability predicate `accepts`. -/
def tryRates (accepts : Nat → Bool) : List Nat → Option Nat
  | [] => none
  | r :: rs => if accepts r then some r else tryRates accepts rs

/-- `Recorder._set_supported_sample_rate` (src/recorder.py lines 101-125)
for a selected device: the result is the negotiated `sample_rate` together
with a flag that is true exactly on the final fallback path, where the
source prints "No supported sample rate found. ... may not work" (the
"possibly non-functional" marker); no path aborts.  `defaultRate` is the
device-reported `default_samplerate`. -/
def setSupportedSampleRate (accepts : Nat → Bool) (defaultRate : Nat) : Nat × Bool :=
  match tryRates accepts commonRates with
  | some r => (r, false)
  | none =>
    if accepts defaultRate then (defaultRate, false)
    else (SAMPLE_RATE, true)

/-- C7: sample-rate negotiation selects the first rate of
[44100, 48000, 16000, 8000] accepted by the device; if all four fail it
selects the device default rate when accepted; if even that fails it
selects the hardcoded safe default 16000 and flags the session as possibly
non-functional, without aborting. -/
theorem sample_rate_negotiation_spec (accepts : Nat → Bool) (d : Nat) :
    (accepts 44100 = true → setSupportedSampleRate accepts d = (44100, false)) ∧
    (accepts 44100 = false → accepts 48000 = true →
      setSupportedSampleRate accepts d = (48000, false)) ∧
    (accepts 44100 = false → accepts 48000 = false → accepts 16000 = true →
      setSupportedSampleRate accepts d = (16000, false)) ∧
    (accepts 44100 = false → accepts 48000 = false → accepts 16000 = false →
      accepts 8000 = true → setSupportedSampleRate accepts d = (8000, false)) ∧
    ((∀ r ∈ commonRates, accepts r = false) → accepts d = true →
      setSupportedSampleRate accepts d = (d, false)) ∧
    ((∀ r ∈ commonRates, accepts r = false) → accepts d = false →
      setSupportedSampleRate accepts d = (SAMPLE_RATE, true)) := by
  refine ⟨?_, ?_, ?_, ?_, ?_, ?_⟩
  · intro h1; simp [setSupportedSampleRate, tryRates, commonRates, h1]
  · intro h1 h2; simp [setSupportedSampleRate, tryRates, commonRates, h1, h2]
  · intro h1 h2 h3; simp [setSupportedSampleRate, tryRates, commonRates, h1, h2, h3]
  · intro h1 h2 h3 h4; simp [setSupportedSampleRate, tryRates, commonRates, h1, h2, h3, h4]
  · intro hall hd
    have h1 := hall 44100 (by simp [commonRates])
    have h2 := hall 48000 (by simp [commonRates])
    have h3 := hall 16000 (by simp [commonRates])
    have h4 := hall 8000 (by simp [commonRates])
    simp [setSupportedSampleRate, tryRates, commonRates, h1, h2, h3, h4, hd]
  · intro hall hd
    have h1 := hall 44100 (by simp [commonRates])
    have h2 := hall 48000 (by simp [commonRates])
    have h3 := hall 16000 (by simp [commonRates])
    have h4 := hall 8000 (by simp [commonRates])
    simp [setSupportedSampleRate, tryRates, commonRates, h1, h2, h3, h4, hd]

/-- Witness for C7 with a device accepting only 48000, default rate 22050. -/
theorem sample_rate_negotiation_spec_witness :
    ((fun r => decide (r = 48000)) 44100 = false) ∧
    ((fun r => decide (r = 48000)) 48000 = true) ∧
    setSupportedSampleRate (fun r => decide (r = 48000)) 22050 = (48000, false) :=
  ⟨by decide, by decide,
   (sample_rate_negotiation_spec (fun r => decide (r = 48000)) 22050).2.1
     (by decide) (by decide)⟩

/-! ### TTS voice selection (src/config.py lines 12-23, src/tts.py 24-59) -/

/-- `Config.TTS_VOICES` (src/config.py lines 12-23). -/
def TTS_VOICES : List String :=
  ["alloy", "ash", "ballad", "coral", "echo", "fable", "nova", "onyx", "sage", "shimmer"]

/-- The voice chosen by `TextToSpeechService.__init__` (src/tts.py lines
26-31): lowercase the environment-supplied default; keep it when it is one
of `TTS_VOICES`, otherwise fall back to "alloy". -/
def initVoice (envVoice : String) : String :=
  if TTS_VOICES.contains envVoice.toLower then envVoice.toLower else "alloy"

/-- `TextToSpeechService.set_voice` (src/tts.py lines 54-59): accept the
new voice only when it is in the available list, else keep the current
voice unchanged. -/
def setVoice (cur v : String) : String :=
  if TTS_VOICES.contains v then v else cur

/-- The current voice after construction with environment default
`envVoice` followed by any sequence of `set_voice` calls. -/
def runVoice (envVoice : String) (ops : List String) : String :=
  ops.foldl setVoice (initVoice envVoice)

theorem foldl_setVoice_mem (ops : List String) (cur : String)
    (h : TTS_VOICES.contains cur = true) :
    TTS_VOICES.contains (ops.foldl setVoice cur) = true := by
  induction ops generalizing cur with
  | nil => exact h
  | cons v rest ih =>
    rw [List.foldl_cons]
    apply ih
    rw [setVoice]
    by_cases hv : TTS_VOICES.contains v
    · rw [if_pos hv]; exact hv
    · rw [if_neg hv]; exact h

/-- C10: in every reachable state the selected TTS voice is a member of
`Config.TTS_VOICES`: the constructor falls back to "alloy" on an invalid
environment default, and `set_voice` ignores voices outside the list. -/
theorem current_voice_always_valid (envVoice : String) (ops : List String) :
    TTS_VOICES.contains (runVoice envVoice ops) = true := by
  rw [runVoice]
  apply foldl_setVoice_mem
  rw [initVoice]
  by_cases h : TTS_VOICES.contains envVoice.toLower
  · rw [if_pos h]; exact h
  · rw [if_neg h]; decide

/-! ### Recorder: capture loop duration cap (src/recorder.py lines 182-198)

The loop body is `while self.recording and (time.time() - start_time <
RECORD_SECONDS): time.sleep(0.1)` with `RECORD_SECONDS = 60`.  Time is
discretized into 0.1-second ticks, so the 60-second cap is `capTicks =
600` ticks.  `recFlag k` is the value of the externally-written
`self.recording` flag at tick `k` (`stop()`/`cancel()` are its only
writers; the loop itself never writes it). -/

/-- `RECORD_SECONDS = 60` seconds, in 0.1-second sleep ticks. -/
def capTicks : Nat := 600

/-- One pass of the capture loop condition per tick: continue while the
recording flag is set and the elapsed ticks are below the cap.  The fuel
starts at `capTicks`, so `k + fuel = capTicks` throughout and the
elapsed-time guard `k < capTicks` is checked exactly as in the source. -/
def captureLoopAux (recFlag : Nat → Bool) : Nat → Nat → Nat
  | k, 0 => k
  | k, fuel + 1 =>
    if recFlag k && decide (k < capTicks) then captureLoopAux recFlag (k + 1) fuel
    else k

/-- `Recorder._record`'s loop: returns the exit tick and the value of the
`recording` flag at loop exit (the loop body never assigns `recording`, so
the flag after exit is whatever the external writers left at that tick). -/
def captureLoopRun (recFlag : Nat → Bool) : Nat × Bool :=
  let e := captureLoopAux recFlag 0 capTicks
  (e, recFlag e)

theorem captureLoopAux_le (recFlag : Nat → Bool) (fuel k : Nat) :
    captureLoopAux recFlag k fuel ≤ k + fuel := by
  induction fuel generalizing k with
  | zero => simp [captureLoopAux]
  | succ f ih =>
    rw [captureLoopAux]
    by_cases h : recFlag k && decide (k < capTicks)
    · rw [if_pos h]
      calc captureLoopAux recFlag (k + 1) f ≤ (k + 1) + f := ih (k + 1)
        _ = k + (f + 1) := by omega
    · rw [if_neg h]; omega

theorem captureLoopAux_never_stopped (recFlag : Nat → Bool)
    (hall : ∀ k, recFlag k = true) (fuel k : Nat) (hk : k + fuel = capTicks) :
    captureLoopAux recFlag k fuel = capTicks := by
  induction fuel generalizing k with
  | zero => simpa using hk
  | succ f ih =>
    rw [captureLoopAux]
    have hlt : k < capTicks := by omega
    rw [if_pos (by simp [hall k, hlt])]
    exact ih (k + 1) (by omega)

/-- C6 counterexample: when `stop()` is never called (the recording flag
stays true at every tick), the capture loop does terminate at the cap, but
the `recording` flag is NOT false afterwards — the loop exits without
assigning it, so the state is not the one `stop()` would produce. -/
theorem capture_cap_not_like_stop :
    ¬ ((captureLoopRun (fun _ => true)).2 = false) := by
  decide

/-- C6 amended: the capture loop always terminates after at most the
60-time-unit cap (600 ticks) even if `stop()` is never called, and capture
ceases then; but on hitting the cap the loop exits leaving the recording
flag exactly as the external writers left it — with no `stop()` call it
exits precisely at the cap with `recording` still true, rather than in the
state `stop()` would produce. -/
theorem capture_loop_cap_spec (recFlag : Nat → Bool) :
    (captureLoopRun recFlag).1 ≤ capTicks ∧
    ((∀ k, recFlag k = true) → captureLoopRun recFlag = (capTicks, true)) := by
  constructor
  · have := captureLoopAux_le recFlag capTicks 0
    simpa [captureLoopRun] using this
  · intro hall
    have he := captureLoopAux_never_stopped recFlag hall capTicks 0 (by omega)
    simp [captureLoopRun, he, hall capTicks]

/-- Witness for C6 amended at the never-stopped flag assignment. -/
theorem capture_loop_cap_spec_witness :
    (captureLoopRun (fun _ => true)).1 ≤ capTicks ∧
    captureLoopRun (fun _ => true) = (capTicks, true) :=
  ⟨(capture_loop_cap_spec (fun _ => true)).1,
   (capture_loop_cap_spec (fun _ => true)).2 (fun _ => rfl)⟩

/-! ### Hotkey chord controller (src/hotkeys.py)

Raw pynput keys relevant to the handlers.  `CTRL_KEYS = {ctrl_l}`,
`WIN_KEYS = {cmd, cmd_l, cmd_r}`, `ALT_KEYS = {alt_l}`; the canonical
`Key.ctrl` / `Key.alt` values themselves also reach the chord logic
unchanged, so they appear as their own constructors.  `other` stands for
any key that is neither tracked nor special. -/
inductive RKey
  | ctrlL | ctrl | cmd | cmdL | cmdR | altL | alt | bKey | esc | other
deriving DecidableEq, Repr

/-- Key normalization of `on_press`/`on_release` (src/hotkeys.py lines
66-74 and 126-134). -/
def normKey : RKey → RKey
  | .ctrlL => .ctrl
  | .cmd => .cmd
  | .cmdL => .cmd
  | .cmdR => .cmd
  | .altL => .alt
  | k => k

/-- Whether a raw key is in `WIN_KEYS` (src/hotkeys.py line 11). -/
def isWinKey (k : RKey) : Bool :=
  k = .cmd || k = .cmdL || k = .cmdR

/-- Whether a normalized key is one of the four tracked keys
(ctrl, cmd, alt, b) of src/hotkeys.py line 77. -/
def isTracked (k : RKey) : Bool :=
  k = .ctrl || k = .cmd || k = .alt || k = .bKey

/-- The `is_second_key` helper (src/hotkeys.py lines 82-90): both keys
occur in the press order and the first occurrence of `s` is after the
first occurrence of `f` (Python `.index` raises on a missing key, which
the helper turns into False). -/
def isSecondKey (order : List RKey) (f s : RKey) : Bool :=
  decide (2 ≤ order.length) && order.contains f && order.contains s &&
    decide (order.indexOf f < order.indexOf s)

/-- State of the hotkey controller together with the recorder pieces the
handlers touch.  `pressed`/`order` are `pressed_keys`/`key_press_order`
(the set is modelled as a duplicate-free list); `combo` and `tts` are
`combo_activated` and `tts_combo_activated`; `recording`, `audio`,
`errorOcc` mirror `Recorder.recording`, `Recorder.audio` (frames as
abstract naturals) and `Recorder.error_occurred`; `recStart` is
`record_start_time`; `transcripts` logs every `transcribe_callback`
invocation with the audio it received. -/
structure HState where
  pressed : List RKey
  order : List RKey
  combo : Bool
  tts : Bool
  recording : Bool
  audio : List Nat
  errorOcc : Bool
  recStart : ℚ
  transcripts : List (List Nat)
deriving DecidableEq, Repr

/-- The initial controller state (src/hotkeys.py lines 23-30,
src/recorder.py lines 19-27). -/
def initHState : HState :=
  ⟨[], [], false, false, false, [], false, 0, []⟩

/-- `on_press` (src/hotkeys.py lines 45-121) as one atomic step.  `t` is
the wall-clock time of the event, `startOk` the outcome of
`recorder.start()` (false exactly when no input device is selected, in
which case `start` returns without side effects), and `playing` the value
of `tts_service._is_playing` observed by the Esc branch. -/
def onPress (s : HState) (k : RKey) (t : ℚ) (startOk playing : Bool) : HState :=
  if k = .esc && playing then s
  else if isWinKey k && (s.recording || s.combo) then
    -- cancel(): stop, discard audio, clear error; then clear record chord state
    { s with audio := [], recording := false, errorOcc := false,
             combo := false, pressed := [], order := [] }
  else
    let nk := normKey k
    let fresh := isTracked nk && !(s.pressed.contains nk)
    let pressed' := if fresh then s.pressed ++ [nk] else s.pressed
    let order' := if fresh then s.order ++ [nk] else s.order
    if pressed'.contains .ctrl && pressed'.contains .cmd && !s.tts && !s.combo &&
        isSecondKey order' .ctrl .cmd && !(pressed'.contains .alt) then
      { s with pressed := pressed', order := order', tts := true }
    else if pressed'.contains .alt && pressed'.contains .bKey && !s.recording &&
        !s.combo && !s.tts && isSecondKey order' .alt .bKey then
      if startOk then
        { s with pressed := pressed', order := order', combo := true,
                 recStart := t, recording := true, audio := [], errorOcc := false }
      else
        { s with pressed := [], order := [], combo := false, recStart := t }
    else
      { s with pressed := pressed', order := order' }

/-- `MIN_RECORD_DURATION` (src/hotkeys.py line 14). -/
def MIN_RECORD_DURATION : ℚ := 1

/-- `on_release` (src/hotkeys.py lines 123-202) as one atomic step at
wall-clock time `t`.  `get_wav_bytes` returns `None` for an empty buffer,
in which case `transcribe_callback` is not invoked. -/
def onRelease (s : HState) (k : RKey) (t : ℚ) : HState :=
  let nk := normKey k
  let isComboK := nk = .alt || nk = .bKey
  let isTtsK := nk = .ctrl || nk = .cmd
  if isTtsK && s.tts then
    { s with pressed := [], order := [], tts := false }
  else if isComboK && s.combo then
    if s.errorOcc then
      { s with recording := false, pressed := [], order := [], combo := false }
    else if t - s.recStart < MIN_RECORD_DURATION then
      { s with recording := false, pressed := [], order := [], combo := false }
    else if s.audio.isEmpty then
      { s with recording := false, pressed := [], order := [], combo := false }
    else
      { s with recording := false, pressed := [], order := [], combo := false,
               transcripts := s.transcripts ++ [s.audio] }
  else if isTracked nk then
    { s with pressed := s.pressed.filter (· ≠ nk), order := s.order.filter (· ≠ nk) }
  else s

/-- Events driving the controller: key presses and releases at a given
time, audio frames delivered by the capture callback (appended only while
`recording` is set, src/recorder.py lines 185-190), and a capture fault
(src/recorder.py lines 199-216: sets `recording := false`,
`error_occurred := true` and fires the registered `reset_state` callback,
which clears both chord flags and the tracked keys). -/
inductive HEv
  | press (k : RKey) (t : ℚ) (startOk playing : Bool)
  | release (k : RKey) (t : ℚ)
  | frame (x : Nat)
  | recFault

/-- One controller step. -/
def hstep (s : HState) : HEv → HState
  | .press k t startOk playing => onPress s k t startOk playing
  | .release k t => onRelease s k t
  | .frame x => if s.recording then { s with audio := s.audio ++ [x] } else s
  | .recFault =>
    if s.recording then
      { s with recording := false, errorOcc := true,
               combo := false, tts := false, pressed := [], order := [] }
    else s

/-- The controller state after a trace of events. -/
def runH (tr : List HEv) : HState :=
  tr.foldl hstep initHState

/-- The controller invariant: the two chord flags are never both set, and
the recorder is recording only while the record chord is active. -/
def HInv (s : HState) : Prop :=
  (s.combo && s.tts) = false ∧ (s.recording = true → s.combo = true)

theorem hstep_inv (s : HState) (e : HEv) (h : HInv s) : HInv (hstep s e) := by
  obtain ⟨h1, h2⟩ := h
  cases e with
  | press k t startOk playing =>
    rw [hstep, onPress]
    split
    · exact ⟨h1, h2⟩
    · split
      · exact ⟨by simp, by simp⟩
      · dsimp only
        split <;> try split
        all_goals try split
        all_goals try split
        all_goals refine ⟨?_, ?_⟩
        all_goals simp_all
  | release k t =>
    rw [hstep, onRelease]
    split <;> try split
    all_goals try split
    all_goals try split
    all_goals try split
    all_goals refine ⟨?_, ?_⟩
    all_goals simp_all
  | frame x =>
    rw [hstep]
    split
    · exact ⟨by simpa using h1, by intro hr; simp only at hr ⊢; exact h2 hr⟩
    · exact ⟨h1, h2⟩
  | recFault =>
    rw [hstep]
    split
    · exact ⟨by simp, by simp⟩
    · exact ⟨h1, h2⟩

theorem initHState_inv : HInv initHState :=
  ⟨rfl, fun h => by simp [initHState] at h⟩

theorem runH_inv (tr : List HEv) : HInv (runH tr) := by
  rw [runH]
  have : ∀ (l : List HEv) (s : HState), HInv s → HInv (l.foldl hstep s) := by
    intro l
    induction l with
    | nil => intro s hs; exact hs
    | cons e rest ih => intro s hs; exact ih (hstep s e) (hstep_inv s e hs)
  exact this tr initHState initHState_inv

/-- C2: for every finite sequence of events delivered to the hotkey
controller, at most one of `combo_activated` and `tts_combo_activated` is
set at any instant: no interleaving makes both true. -/
theorem chord_flags_mutually_exclusive (tr : List HEv) :
    ((runH tr).combo && (runH tr).tts) = false :=
  (runH_inv tr).1

/-- C4: a press of the OS super/Win key while recording is in progress or
the record chord is armed leaves the capture buffer empty and both chord
flags false. -/
theorem cancel_key_clears_state (tr : List HEv) (k : RKey) (t : ℚ)
    (startOk playing : Bool) (hwin : isWinKey k = true)
    (hact : ((runH tr).recording || (runH tr).combo) = true) :
    (runH (tr ++ [HEv.press k t startOk playing])).audio = [] ∧
    (runH (tr ++ [HEv.press k t startOk playing])).combo = false ∧
    (runH (tr ++ [HEv.press k t startOk playing])).tts = false := by
  obtain ⟨h1, h2⟩ := runH_inv tr
  have hrun : runH (tr ++ [HEv.press k t startOk playing]) =
      onPress (runH tr) k t startOk playing := by
    rw [runH, List.foldl_append]
    rfl
  have hcombo : (runH tr).combo = true := by
    rcases Bool.or_eq_true_iff.mp hact with hr | hc
    · exact h2 hr
    · exact hc
  have htts : (runH tr).tts = false := by
    rw [hcombo] at h1
    simpa using h1
  have hkesc : ¬(decide (k = RKey.esc) && playing) = true := by
    cases k <;> simp_all [isWinKey]
  rw [hrun, onPress, if_neg hkesc, if_pos (by simp [hwin, hact])]
  exact ⟨rfl, rfl, htts⟩

/-- Witness for C4: arm and start a recording with Alt+B, then press the
left Win key. -/
theorem cancel_key_clears_state_witness :
    isWinKey RKey.cmdL = true ∧
    ((runH [HEv.press RKey.altL 0 true false,
            HEv.press RKey.bKey 0 true false]).recording ||
     (runH [HEv.press RKey.altL 0 true false,
            HEv.press RKey.bKey 0 true false]).combo) = true ∧
    ((runH ([HEv.press RKey.altL 0 true false, HEv.press RKey.bKey 0 true false] ++
        [HEv.press RKey.cmdL 0 true false])).audio = [] ∧
     (runH ([HEv.press RKey.altL 0 true false, HEv.press RKey.bKey 0 true false] ++
        [HEv.press RKey.cmdL 0 true false])).combo = false ∧
     (runH ([HEv.press RKey.altL 0 true false, HEv.press RKey.bKey 0 true false] ++
        [HEv.press RKey.cmdL 0 true false])).tts = false) :=
  ⟨by decide, by decide,
   cancel_key_clears_state [HEv.press RKey.altL 0 true false,
     HEv.press RKey.bKey 0 true false] RKey.cmdL 0 true false (by decide) (by decide)⟩

/-- C5: releasing a record-chord key while the chord is armed, with
elapsed wall-clock duration below `MIN_RECORD_DURATION`, never invokes the
transcription callback: the transcript log is unchanged. -/
theorem short_recording_never_transcribed (tr : List HEv) (k : RKey) (t : ℚ)
    (hk : normKey k = RKey.alt ∨ normKey k = RKey.bKey)
    (hcombo : (runH tr).combo = true)
    (hshort : t - (runH tr).recStart < MIN_RECORD_DURATION) :
    (runH (tr ++ [HEv.release k t])).transcripts = (runH tr).transcripts := by
  have hrun : runH (tr ++ [HEv.release k t]) = onRelease (runH tr) k t := by
    rw [runH, List.foldl_append]
    rfl
  rw [hrun, onRelease]
  rcases hk with hk | hk <;> rw [hk] <;>
    by_cases herr : (runH tr).errorOcc = true <;>
      simp [hcombo, herr, hshort]

/-- Witness for C5: Alt+B armed at time 0, B released at time 0 (duration
0 < 1): no transcript is added. -/
theorem short_recording_never_transcribed_witness :
    (normKey RKey.bKey = RKey.alt ∨ normKey RKey.bKey = RKey.bKey) ∧
    (runH [HEv.press RKey.altL 0 true false,
           HEv.press RKey.bKey 0 true false]).combo = true ∧
    ((0 : ℚ) - (runH [HEv.press RKey.altL 0 true false,
        HEv.press RKey.bKey 0 true false]).recStart < MIN_RECORD_DURATION) ∧
    (runH ([HEv.press RKey.altL 0 true false, HEv.press RKey.bKey 0 true false] ++
        [HEv.release RKey.bKey 0])).transcripts =
      (runH [HEv.press RKey.altL 0 true false,
             HEv.press RKey.bKey 0 true false]).transcripts :=
  ⟨Or.inr rfl, by decide,
   by
     rw [show (runH [HEv.press RKey.altL 0 true false,
       HEv.press RKey.bKey 0 true false]).recStart = 0 from rfl]
     norm_num [MIN_RECORD_DURATION],
   short_recording_never_transcribed
     [HEv.press RKey.altL 0 true false, HEv.press RKey.bKey 0 true false]
     RKey.bKey 0 (Or.inr rfl) (by decide)
     (by
       rw [show (runH [HEv.press RKey.altL 0 true false,
         HEv.press RKey.bKey 0 true false]).recStart = 0 from rfl]
       norm_num [MIN_RECORD_DURATION])⟩

/-! ### Streaming synthesis pipeline (src/tts.py lines 228-278)

`_stream_chunks` submits every chunk to a worker pool, records each
result in a dict `buffer` keyed by chunk index as the futures complete
(in arbitrary order), and after each arrival drains the buffer from
`next_index` upward while consecutive indices are present, playing each
non-empty audio synchronously.  `results i` is the synthesis outcome for
chunk `i` (`none` models both a failed synthesis and empty audio bytes:
`if audio_data:` is false for both).  An arrival sequence is any
linearization of future completions; the stop event is never set in this
model (the claim is about an uncancelled invocation). -/

/-- The inner drain loop (src/tts.py lines 253-259): while `next ∈ buffer`
pop it, play it when its audio is non-empty (recording its index in the
sink log `played`), and advance.  Returns the remaining buffer, the new
next index, and the sink log. -/
def drainGo (results : Nat → Option Nat) (b : Finset Nat) (next : Nat)
    (played : List Nat) : Finset Nat × Nat × List Nat :=
  if h : next ∈ b then
    drainGo results (b.erase next) (next + 1)
      (played ++ if (results next).isSome then [next] else [])
  else (b, next, played)
termination_by b.card
decreasing_by exact Finset.card_erase_lt_of_mem h

/-- One future completion (src/tts.py lines 244-259): record the arrived
index in the buffer, then drain. -/
def streamStep (results : Nat → Option Nat) (st : Finset Nat × Nat × List Nat)
    (idx : Nat) : Finset Nat × Nat × List Nat :=
  drainGo results (insert idx st.1) st.2.1 st.2.2

/-- `_stream_chunks` once all futures have completed, for a given arrival
order: process each completion in order, then run the final flush loop
(src/tts.py lines 261-268), which is the same drain. -/
def runStream (results : Nat → Option Nat) (arrivals : List Nat) :
    Finset Nat × Nat × List Nat :=
  let st := arrivals.foldl (streamStep results) (∅, 0, [])
  drainGo results st.1 st.2.1 st.2.2

theorem drainGo_le (results : Nat → Option Nat) (b : Finset Nat) (next : Nat)
    (played : List Nat) : next ≤ (drainGo results b next played).2.1 := by
  induction b, next, played using drainGo.induct results with
  | case1 b next played hmem ih =>
    rw [drainGo, dif_pos hmem]
    exact le_trans (Nat.le_succ next) ih
  | case2 b next played hmem =>
    rw [drainGo, dif_neg hmem]

theorem drainGo_next_not_mem (results : Nat → Option Nat) (b : Finset Nat)
    (next : Nat) (played : List Nat) :
    (drainGo results b next played).2.1 ∉ (drainGo results b next played).1 := by
  induction b, next, played using drainGo.induct results with
  | case1 b next played hmem ih =>
    rw [drainGo, dif_pos hmem]
    exact ih
  | case2 b next played hmem =>
    rw [drainGo, dif_neg hmem]
    exact hmem

theorem drainGo_buffer_mem (results : Nat → Option Nat) (b : Finset Nat)
    (next : Nat) (played : List Nat) (k : Nat) :
    (k ∈ (drainGo results b next played).1 ↔
      k ∈ b ∧ (k < next ∨ (drainGo results b next played).2.1 ≤ k)) := by
  induction b, next, played using drainGo.induct results with
  | case1 b next played hmem ih =>
    simp only [dite_eq_ite] at ih
    rw [drainGo, dif_pos hmem]
    have hnext : next + 1 ≤ (drainGo results (b.erase next) (next + 1)
        (played ++ if (results next).isSome then [next] else [])).2.1 :=
      drainGo_le results _ _ _
    constructor
    · intro hk
      have := ih.mp hk
      rw [Finset.mem_erase] at this
      exact ⟨this.1.2, by omega⟩
    · intro ⟨hkb, hrange⟩
      apply ih.mpr
      refine ⟨Finset.mem_erase.mpr ⟨?_, hkb⟩, by omega⟩
      omega
  | case2 b next played hmem =>
    rw [drainGo, dif_neg hmem]
    constructor
    · intro hk
      refine ⟨hk, ?_⟩
      by_cases hlt : k < next
      · exact Or.inl hlt
      · exact Or.inr (show next ≤ k by omega)
    · intro ⟨hkb, _⟩
      exact hkb

theorem drainGo_interval_mem (results : Nat → Option Nat) (b : Finset Nat)
    (next : Nat) (played : List Nat) (k : Nat) (h1 : next ≤ k)
    (h2 : k < (drainGo results b next played).2.1) : k ∈ b := by
  induction b, next, played using drainGo.induct results with
  | case1 b next played hmem ih =>
    simp only [dite_eq_ite] at ih
    rw [drainGo, dif_pos hmem] at h2
    by_cases hk : k = next
    · subst hk; exact hmem
    · have := ih (by omega) h2
      exact (Finset.mem_erase.mp this).2
  | case2 b next played hmem =>
    rw [drainGo, dif_neg hmem] at h2
    exact absurd (show k < next from h2) (by omega)

theorem drainGo_played (results : Nat → Option Nat) (b : Finset Nat)
    (next : Nat) (played : List Nat) :
    (drainGo results b next played).2.2 = played ++
      (List.range' next ((drainGo results b next played).2.1 - next)).filter
        (fun i => (results i).isSome) := by
  induction b, next, played using drainGo.induct results with
  | case1 b next played hmem ih =>
    simp only [dite_eq_ite] at ih
    rw [drainGo, dif_pos hmem]
    have hnext : next + 1 ≤ (drainGo results (b.erase next) (next + 1)
        (played ++ if (results next).isSome then [next] else [])).2.1 :=
      drainGo_le results _ _ _
    rw [ih]
    have hlen : (drainGo results (b.erase next) (next + 1)
        (played ++ if (results next).isSome then [next] else [])).2.1 - next =
        ((drainGo results (b.erase next) (next + 1)
          (played ++ if (results next).isSome then [next] else [])).2.1 - (next + 1)) + 1 := by
      omega
    rw [hlen, List.range'_succ, List.filter_cons, List.append_assoc]
    by_cases hs : (results next).isSome
    · simp [hs]
    · simp [hs]
  | case2 b next played hmem =>
    rw [drainGo, dif_neg hmem]
    simp

theorem range_append_range' (next k : Nat) (h : next ≤ k) :
    List.range next ++ List.range' next (k - next) = List.range k := by
  rw [List.range_eq_range', List.range_eq_range']
  have hap := List.range'_append 0 next (k - next) 1
  simp only [Nat.zero_add, Nat.one_mul] at hap
  rw [hap]
  congr 1
  omega

/-- Invariant of the streaming loop after the completions in `A` have been
processed: the buffer holds exactly the arrived indices not yet drained,
every index below `next` has arrived, `next` itself has not, and the sink
log is exactly the ascending list of arrived-and-drained indices whose
synthesis produced audio. -/
def StreamInv (results : Nat → Option Nat) (A : Finset Nat)
    (st : Finset Nat × Nat × List Nat) : Prop :=
  (∀ k, k ∈ st.1 ↔ (k ∈ A ∧ st.2.1 ≤ k)) ∧
  (∀ k, k < st.2.1 → k ∈ A) ∧
  st.2.1 ∉ A ∧
  st.2.2 = (List.range st.2.1).filter (fun i => (results i).isSome)

theorem streamStep_inv (results : Nat → Option Nat) (A : Finset Nat)
    (st : Finset Nat × Nat × List Nat) (idx : Nat)
    (hinv : StreamInv results A st) (hidx : idx ∉ A) :
    StreamInv results (insert idx A) (streamStep results st idx) := by
  obtain ⟨hbuf, hlow, hnotin, hplay⟩ := hinv
  obtain ⟨b, next, played⟩ := st
  simp only at hbuf hlow hnotin hplay
  have hidxge : next ≤ idx := by
    by_contra hlt
    exact hidx (hlow idx (by omega))
  have hb1 : ∀ k, k ∈ insert idx b ↔ (k ∈ insert idx A ∧ next ≤ k) := by
    intro k
    rw [Finset.mem_insert, Finset.mem_insert, hbuf k]
    constructor
    · rintro (rfl | ⟨hk, hge⟩)
      · exact ⟨Or.inl rfl, hidxge⟩
      · exact ⟨Or.inr hk, hge⟩
    · rintro ⟨rfl | hk, hge⟩
      · exact Or.inl rfl
      · exact Or.inr ⟨hk, hge⟩
  rw [streamStep]
  set D := drainGo results (insert idx b) next played with hD
  have hle : next ≤ D.2.1 := drainGo_le results _ _ _
  have hmemD : ∀ k, k ∈ D.1 ↔ (k ∈ insert idx b ∧ (k < next ∨ D.2.1 ≤ k)) :=
    fun k => drainGo_buffer_mem results _ _ _ k
  have hintv : ∀ k, next ≤ k → k < D.2.1 → k ∈ insert idx b :=
    fun k h1 h2 => drainGo_interval_mem results _ _ _ k h1 h2
  have hplayD : D.2.2 = played ++
      (List.range' next (D.2.1 - next)).filter (fun i => (results i).isSome) :=
    drainGo_played results _ _ _
  refine ⟨?_, ?_, ?_, ?_⟩
  · intro k
    rw [hmemD k, hb1 k]
    constructor
    · rintro ⟨⟨hkA, hge⟩, hr | hr⟩
      · omega
      · exact ⟨hkA, hr⟩
    · rintro ⟨hkA, hge⟩
      exact ⟨⟨hkA, by omega⟩, Or.inr hge⟩
  · intro k hk
    by_cases hlt : k < next
    · exact Finset.mem_insert.mpr (Or.inr (hlow k hlt))
    · exact (hb1 k).mp (hintv k (by omega) hk) |>.1
  · intro hmem
    have : D.2.1 ∈ insert idx b := (hb1 _).mpr ⟨hmem, hle⟩
    have : D.2.1 ∈ D.1 := (hmemD _).mpr ⟨this, Or.inr le_rfl⟩
    exact drainGo_next_not_mem results _ _ _ this
  · rw [hplayD, hplay, ← List.filter_append, range_append_range' next D.2.1 hle]

theorem foldStream_inv (results : Nat → Option Nat) (l : List Nat)
    (A : Finset Nat) (st : Finset Nat × Nat × List Nat)
    (hinv : StreamInv results A st) (hfresh : ∀ x ∈ l, x ∉ A) (hnd : l.Nodup) :
    StreamInv results (A ∪ l.toFinset) (l.foldl (streamStep results) st) := by
  induction l generalizing A st with
  | nil => simpa using hinv
  | cons x rest ih =>
    rw [List.foldl_cons]
    have hx : x ∉ A := hfresh x (by simp)
    have hstep := streamStep_inv results A st x hinv hx
    have hrest : ∀ y ∈ rest, y ∉ insert x A := by
      intro y hy
      rw [Finset.mem_insert]
      rintro (rfl | hyA)
      · exact (List.nodup_cons.mp hnd).1 hy
      · exact hfresh y (by simp [hy]) hyA
    have := ih (insert x A) (streamStep results st x) hstep hrest
      (List.nodup_cons.mp hnd).2
    have hset : insert x A ∪ rest.toFinset = A ∪ (x :: rest).toFinset := by
      rw [List.toFinset_cons]
      ext k
      simp only [Finset.mem_union, Finset.mem_insert]
      tauto
    rwa [hset] at this

/-- C1: for every per-chunk synthesis outcome assignment and every
completion order of the worker futures (any permutation of the chunk
indices), the sequence of chunk indices whose audio `_stream_chunks`
delivers to the output sink is exactly the ascending list of indices with
non-empty audio — failed/`None` chunks are skipped as no-op placeholders,
never played out of order or retried — and in particular it is strictly
increasing. -/
theorem stream_playback_in_index_order (results : Nat → Option Nat) (n : Nat)
    (arrivals : List Nat) (hperm : arrivals.Perm (List.range n)) :
    (runStream results arrivals).2.2 =
      (List.range n).filter (fun i => (results i).isSome) ∧
    List.Pairwise (· < ·) (runStream results arrivals).2.2 := by
  have hnd : arrivals.Nodup := hperm.symm.nodup (List.nodup_range n)
  have hmem : ∀ k, k ∈ arrivals.toFinset ↔ k < n := by
    intro k
    rw [List.mem_toFinset, hperm.mem_iff, List.mem_range]
  have hinv0 : StreamInv results ∅ (∅, 0, []) := by
    refine ⟨by simp, by simp, by simp, rfl⟩
  have hfold := foldStream_inv results arrivals ∅ (∅, 0, []) hinv0
    (by simp) hnd
  rw [Finset.empty_union] at hfold
  obtain ⟨hbuf, hlow, hnotin, hplay⟩ := hfold
  set st := arrivals.foldl (streamStep results) (∅, 0, []) with hst
  have hnexteq : st.2.1 = n := by
    have hub : st.2.1 ≤ n := by
      by_contra hgt
      have : n < st.2.1 := by omega
      have := hlow n this
      rw [hmem n] at this
      omega
    by_cases hlt : st.2.1 < n
    · exact absurd ((hmem st.2.1).mpr hlt) hnotin
    · omega
  have hbempty : st.2.1 ∉ st.1 := by
    intro hc
    have := (hbuf _).mp hc
    exact hnotin this.1
  have hrun : runStream results arrivals = (st.1, st.2.1, st.2.2) := by
    rw [runStream, ← hst, drainGo, dif_neg hbempty]
  rw [hrun]
  refine ⟨by rw [hplay, hnexteq], ?_⟩
  rw [hplay]
  exact (List.pairwise_lt_range st.2.1).filter _

/-- Witness for C1: three chunks completing in the order 2, 0, 1, with
chunk 1 failing: the sink receives chunks 0 and 2, in that order. -/
theorem stream_playback_in_index_order_witness :
    ([2, 0, 1] : List Nat).Perm (List.range 3) ∧
    ((runStream (fun i => if i = 1 then none else some i) [2, 0, 1]).2.2 =
      (List.range 3).filter
        (fun i => ((fun i => if i = 1 then none else some i) i).isSome) ∧
     List.Pairwise (· < ·)
      (runStream (fun i => if i = 1 then none else some i) [2, 0, 1]).2.2) :=
  ⟨by decide,
   stream_playback_in_index_order (fun i => if i = 1 then none else some i) 3
     [2, 0, 1] (by decide)⟩
